import Mathlib

/-!
Shallow embedding of the tidbytes memory-region core (src/tidbytes) in Lean 4.

The Python backing store `MemRgn` is a list of "bytes", each a list of slots
holding `0`, `1` or `None`.  A slot is embedded as `Option Bool` (`none` is the
padding marker, `some false`/`some true` are the bits 0/1); the type makes the
"every slot is 0, 1 or None" check of `validate_memory` hold by construction.

Fallible operations (the Python functions that can raise) return
`Except PyError MemRgn`; `PyError.memException` stands for the library's
`MemException` raised by `ensure`, and `PyError.typeError` for a `TypeError`
raised by the Python runtime itself.
-/

set_option linter.unusedVariables false

namespace Tidbytes

/-- Bit/byte order enum from src/tidbytes/mem_types.py (`Order`). -/
inductive Order where
  | LeftToRight
  | RightToLeft
deriving DecidableEq, Repr

/-- One slot of a memory region: a bit (`some b`) or the `None` padding marker. -/
abbrev Slot := Option Bool

/-- Von Neumann root backing store (src/tidbytes/von_neumann.py, `MemRgn`):
a list of 8-slot groups. -/
structure MemRgn where
  bytes : List (List Slot)
deriving DecidableEq, Repr

/-- Errors: `memException` models the library's `MemException` raised by
`ensure`; `typeError` models a `TypeError` raised by the Python runtime. -/
inductive PyError where
  | memException
  | typeError
deriving DecidableEq, Repr

/-- Transform operation (von_neumann.py, `op_transform`): iterate the groups in
`byte_order` direction and the slots of each group in `bit_order` direction. -/
def op_transform (mem : MemRgn) (bit_order : Order) (byte_order : Order) : MemRgn :=
  let byte_direction := fun (l : List (List Slot)) =>
    match byte_order with
    | .LeftToRight => l
    | .RightToLeft => l.reverse
  let bit_direction := fun (l : List Slot) =>
    match bit_order with
    | .LeftToRight => l
    | .RightToLeft => l.reverse
  ⟨(byte_direction mem.bytes).map bit_direction⟩

/-- von_neumann.py, `op_identity`. -/
def op_identity (mem : MemRgn) : MemRgn :=
  op_transform mem .LeftToRight .LeftToRight

/-- von_neumann.py, `op_reverse`. -/
def op_reverse (mem : MemRgn) : MemRgn :=
  op_transform mem .RightToLeft .RightToLeft

/-- von_neumann.py, `op_reverse_bytes`. -/
def op_reverse_bytes (mem : MemRgn) : MemRgn :=
  op_transform mem .RightToLeft .LeftToRight

/-- von_neumann.py, `op_reverse_bits`. -/
def op_reverse_bits (mem : MemRgn) : MemRgn :=
  op_transform mem .LeftToRight .RightToLeft

/-- von_neumann.py, `iterate_logical_bits`: all slots in order, skipping `None`. -/
def iterate_logical_bits (mem : MemRgn) : List Bool :=
  mem.bytes.flatten.filterMap id

/-- von_neumann.py, `op_bit_length`: number of non-`None` slots. -/
def op_bit_length (mem : MemRgn) : Nat :=
  (iterate_logical_bits mem).length

/-- von_neumann.py, `op_byte_length`: number of groups. -/
def op_byte_length (mem : MemRgn) : Nat :=
  mem.bytes.length

/-- Chunking loop `while all_bits: all_bytes.append(all_bits[:8]); all_bits =
all_bits[8:]` used by `validate_memory`, and also the effect of the
accumulate-and-flush pattern of `op_get_bits`/`op_set_bits` on the slots
produced for one source byte (the accumulator is re-initialised for every
source byte, flushed each time it reaches 8 slots, and its remainder appended
after the byte). -/
def chunks_of_8 : List Slot → List (List Slot)
  | [] => []
  | a :: b :: c :: d :: e :: f :: g :: h :: i :: rest =>
    [a, b, c, d, e, f, g, h] :: chunks_of_8 (i :: rest)
  | l => [l]

/-- Regrouping performed inside von_neumann.py, `validate_memory`: the logical
bits padded with `None` to a multiple of 8, then chunked into groups of 8. -/
def validate_regroup (bits : List Bool) : List (List Slot) :=
  let all_bits : List Slot :=
    bits.map some ++
      (if bits.length % 8 > 0 then List.replicate (8 - bits.length % 8) none else [])
  chunks_of_8 all_bits

/-- von_neumann.py, `validate_memory`, as a Boolean predicate: every group has
8 slots, at least one slot is a bit, and the groups are exactly the logical
bits packed left to right with trailing `None` padding.  (The source's check
that each slot is 0, 1 or `None` holds by construction of `Slot`.) -/
def validate_memory (mem : MemRgn) : Bool :=
  mem.bytes.all (fun byte => byte.length == 8) &&
  mem.bytes.any (fun byte => byte.any (fun s => s.isSome)) &&
  decide (mem.bytes = validate_regroup (iterate_logical_bits mem))

/-- Python list slice `l[:n]` for an `int` bound `n`: clamps at the length for
large `n` and counts from the end for negative `n`. -/
def pySliceTo (l : List Slot) (n : Int) : List Slot :=
  if n < 0 then l.take (l.length - n.natAbs) else l.take n.toNat

/-- Regrouping loop shared by `op_truncate` and `op_concatenate`
(von_neumann.py lines 316-321 and 406-411):

  for i, bit in enumerate(bits):
      if byte and i % 8 == 0: flush byte
      byte.append(bit)
  out.bytes.append((byte + [None] * 8)[:8])

Full groups of 8 are flushed and the final group -- appended unconditionally,
even when `bits` is empty -- is padded with `None` to 8 slots.  An empty input
therefore yields the single group `[None] * 8`. -/
def regroup_final_pad : List Slot → List (List Slot)
  | a :: b :: c :: d :: e :: f :: g :: h :: i :: rest =>
    [a, b, c, d, e, f, g, h] :: regroup_final_pad (i :: rest)
  | bits => [(bits ++ List.replicate 8 none).take 8]

/-- von_neumann.py, `op_truncate`: keep the first `length` slots (including
`None` slots, via a Python slice) and regroup with a padded final group. -/
def op_truncate (mem : MemRgn) (length : Int) : Except PyError MemRgn :=
  let mem_len := op_bit_length mem
  if length ≤ (mem_len : Int) then
    .ok ⟨regroup_final_pad (pySliceTo mem.bytes.flatten length)⟩
  else
    .error .memException

/-- von_neumann.py, `op_extend`.  After the fill-length check the source
evaluates (line 334)

  bits = [bit for byte in mem.bytes for bit in byte] + [0] * length - mem_len

which parses as `(... + [0] * length) - mem_len`: a Python `list` minus an
`int`, so every call that passes the `ensure` raises `TypeError` before any
region is built. -/
def op_extend (mem : MemRgn) (amount : Int) (fill : MemRgn) : Except PyError MemRgn :=
  if op_bit_length fill = 1 then .error .typeError else .error .memException

/-- von_neumann.py, `op_ensure_bit_length`: truncate, extend (with a 1-bit
zero fill region) or return unchanged. -/
def op_ensure_bit_length (mem : MemRgn) (length : Int) : Except PyError MemRgn :=
  let mem_len := op_bit_length mem
  if (mem_len : Int) > length then
    op_truncate mem length
  else if (mem_len : Int) < length then
    op_extend mem ((mem_len : Int) - length) ⟨[some false :: List.replicate 7 none]⟩
  else
    .ok mem

/-- von_neumann.py, `op_concatenate`: validate both inputs, collect the logical
bits of both, regroup with a padded final group, validate the output. -/
def op_concatenate (mem_left mem_right : MemRgn) : Except PyError MemRgn :=
  if validate_memory mem_left = false then .error .memException
  else if validate_memory mem_right = false then .error .memException
  else
    let bits := (iterate_logical_bits mem_left ++ iterate_logical_bits mem_right).map some
    let out : MemRgn := ⟨regroup_final_pad bits⟩
    if validate_memory out = false then .error .memException else .ok out

/-- Inner selection of von_neumann.py, `op_get_bits`: the slots of one source
byte whose running slot counter lies in `[start, stop)`, in order.  `c` is the
value of `index_counter` when the byte starts. -/
def select_slots (start stop : Int) : Nat → List Slot → List Slot
  | _, [] => []
  | c, bit :: rest =>
    (if start ≤ (c : Int) ∧ (c : Int) < stop then [bit] else []) ++
      select_slots start stop (c + 1) rest

/-- Group construction of von_neumann.py, `op_get_bits` (lines 170-183): for
each source byte, `out_byte` starts empty, selected slots are appended, full
runs of 8 are flushed, and the per-byte remainder is appended by the trailing
`if out_byte:`; this is `chunks_of_8` of the selected slots of each byte. -/
def get_bits_groups (start stop : Int) : Nat → List (List Slot) → List (List Slot)
  | _, [] => []
  | c, byte :: rest =>
    chunks_of_8 (select_slots start stop c byte) ++
      get_bits_groups start stop (c + byte.length) rest

/-- Final fix-up of von_neumann.py, `op_get_bits` (lines 185-186): if the last
group is shorter than 8 slots, pad it with `None` to 8. -/
def pad_last_group (bs : List (List Slot)) : List (List Slot) :=
  match bs.getLast? with
  | none => bs
  | some last =>
    if last.length < 8 then bs.dropLast ++ [(last ++ List.replicate 8 none).take 8]
    else bs

/-- von_neumann.py, `op_get_bits`. -/
def op_get_bits (mem : MemRgn) (start stop : Int) : Except PyError MemRgn :=
  if 0 ≤ start ∧ start ≤ stop ∧ stop ≤ (op_bit_length mem : Int) then
    .ok ⟨pad_last_group (get_bits_groups start stop 0 mem.bytes)⟩
  else
    .error .memException

/-- von_neumann.py, `op_get_bit`. -/
def op_get_bit (mem : MemRgn) (index : Int) : Except PyError MemRgn :=
  if 0 ≤ index ∧ index < (op_bit_length mem : Int) then
    op_get_bits mem index (index + 1)
  else
    .error .memException

/-- von_neumann.py, `op_get_byte`: bounds-checks `index` against the *bit*
length, then reads the byte range truncated to the available bits. -/
def op_get_byte (mem : MemRgn) (index : Int) : Except PyError MemRgn :=
  let mem_bits := op_bit_length mem
  if 0 ≤ index ∧ index < (mem_bits : Int) then
    op_get_bits mem (index * 8) (min (index * 8 + 8) (mem_bits : Int))
  else
    .error .memException

/-- The expression `op_get_bit(payload, i).bytes[0][0]` of von_neumann.py line
232.  Under the contract of `op_set_bits` the inner call always succeeds and
returns a non-empty group, so the `none` fallbacks are unreachable there. -/
def payload_bit_at (payload : MemRgn) (i : Int) : Slot :=
  match op_get_bit payload i with
  | .ok r => (r.bytes.headD []).headD none
  | .error _ => none

/-- Per-byte slot rewriting of von_neumann.py, `op_set_bits` (lines 228-235):
slots whose running counter lies in `[offset, ending)` are replaced by the
corresponding payload bit, the rest are copied. -/
def set_slots (offset ending : Int) (payload : MemRgn) : Nat → List Slot → List Slot
  | _, [] => []
  | c, bit :: rest =>
    (if offset ≤ (c : Int) ∧ (c : Int) < ending then payload_bit_at payload ((c : Int) - offset)
     else bit) :: set_slots offset ending payload (c + 1) rest

/-- Group construction of von_neumann.py, `op_set_bits`: the same
accumulate-and-flush pattern as `op_get_bits` (re-initialised per source byte),
but every slot is appended, and there is no final padding fix-up. -/
def set_bits_groups (offset ending : Int) (payload : MemRgn) :
    Nat → List (List Slot) → List (List Slot)
  | _, [] => []
  | c, byte :: rest =>
    chunks_of_8 (set_slots offset ending payload c byte) ++
      set_bits_groups offset ending payload (c + byte.length) rest

/-- von_neumann.py, `op_set_bits`. -/
def op_set_bits (mem : MemRgn) (offset : Int) (payload : MemRgn) : Except PyError MemRgn :=
  let mem_len := op_bit_length mem
  let ending_index := offset + (op_bit_length payload : Int)
  if 0 ≤ offset ∧ offset < (mem_len : Int) then
    if ending_index ≤ (mem_len : Int) then
      .ok ⟨set_bits_groups offset ending_index payload 0 mem.bytes⟩
    else
      .error .memException
  else
    .error .memException

/-- Total projection of an `Except` result to a region (`⟨[]⟩` on error); used
only to state theorems about results that are proved to be successful. -/
def ok_region (e : Except PyError MemRgn) : MemRgn :=
  match e with
  | .ok r => r
  | .error _ => ⟨[]⟩

/-- codec.py, `identity_bits_from_numeric_byte`: the 8 bits of a byte read
from LSB (bit index 0) to MSB, as slots.  (Its `ensure(0 <= byte <= 255)`
cannot fire on the call paths embedded here, where the argument is a byte of
a `struct.pack` result.) -/
def identity_bits_from_numeric_byte (byte : Nat) : List Slot :=
  (List.range 8).map (fun bit_index => some (byte.testBit bit_index))

/-- codec.py, `identity_bits_from_struct_field` with specifier `<H`:
`struct.pack` produces the two little-endian bytes of a u16 value, and each is
expanded by `identity_bits_from_numeric_byte`. -/
def identity_bits_from_struct_field_H (value : Nat) : List (List Slot) :=
  [identity_bits_from_numeric_byte (value % 256),
   identity_bits_from_numeric_byte (value / 256 % 256)]

/-- codec.py, `from_natural_u16`: a `u16` value is accepted when
`0 ≤ value ≤ 65535` (the `u16` range check), taken here as a `Nat` argument
with the upper bound as a theorem hypothesis. -/
def from_natural_u16 (value : Nat) (bit_length : Option Int) : Except PyError MemRgn :=
  let bl : Int := bit_length.getD 16
  op_ensure_bit_length (op_identity ⟨identity_bits_from_struct_field_H value⟩) bl

/-- Region packing described by the spec, written from the spec's words:
"packing v into 2 bytes in little-endian order and expanding each byte's bits
from LSB to MSB into one 8-slot group".  Compared with `from_natural_u16`. -/
def spec_pack_u16_le_lsb (v : Nat) : MemRgn :=
  ⟨[(List.range 8).map (fun i => some (Nat.testBit (v % 2 ^ 8) i)),
    (List.range 8).map (fun i => some (Nat.testBit (v / 2 ^ 8) i))]⟩

/-- Rendering of idiomatic.py, `Mem.__str__`: groups joined by spaces, a slot
as "0"/"1", `None` slots rendered as the empty string. -/
def mem_str (m : MemRgn) : String :=
  String.intercalate " "
    (m.bytes.map (fun byte =>
      String.join (byte.map (fun s =>
        match s with
        | some true => "1"
        | some false => "0"
        | none => ""))))

/-- Binary digit count of a natural number (digit count of 0 is 0), by
recursion on halving; the first argument is fuel bounding the recursion depth
so the recursion is structural. -/
def nat_bit_length_aux : Nat → Nat → Nat
  | 0, _ => 0
  | fuel + 1, n => if n = 0 then 0 else nat_bit_length_aux fuel (n / 2) + 1

/-- Python `int.bit_length()`: the number of binary digits of the absolute
value (`(0).bit_length() == 0`). -/
def py_int_bit_length (v : Int) : Nat :=
  nat_bit_length_aux v.natAbs v.natAbs

/-- Modelled from the spec: `group_bits_into_bytes` is defined in the module
`tidbytes/natural.py`, which is not under src/ (codec.py line 753 calls it).
Per spec §4.2.3 ("pack into groups") and §3.1 invariant 4 (zero non-⊥ slots is
the null region with zero groups): the flat bit list is packed into 8-slot
groups left to right, the last group padded with ⊥, and an empty list yields
zero groups. -/
def group_bits_into_bytes : List Slot → List (List Slot)
  | [] => []
  | a :: b :: c :: d :: e :: f :: g :: h :: i :: rest =>
    [a, b, c, d, e, f, g, h] :: group_bits_into_bytes (i :: rest)
  | bits => [(bits ++ List.replicate 8 none).take 8]

/-- codec.py, `from_natural_big_integer`: requires a bit length for negative
values, defaults the bit length to `value.bit_length()`, range-checks, and
packs the bits of `value` LSB-first.  `value & (1 << i)` is `Int` bitwise-and
(two's complement, as in Python). -/
def from_natural_big_integer (value : Int) (bit_length : Option Int) :
    Except PyError MemRgn :=
  if value < 0 ∧ bit_length = none then .error .memException
  else
    let bl : Int := bit_length.getD (py_int_bit_length value)
    if (py_int_bit_length value : Int) ≤ bl then
      let bits : List Slot :=
        (List.range bl.toNat).map
          (fun bit_index => some (decide (Int.land value ((2 : Int) ^ bit_index) ≠ 0)))
      .ok ⟨group_bits_into_bytes bits⟩
    else
      .error .memException

/-- Modelled from the spec: `into_natural_big_integer` lives in
`tidbytes/natural.py` or the missing part of codec.py, not under src/.  Spec
§4.2.8: "interpret slots as bits in left-to-right order; first slot is the
most significant bit.  Result is an unsigned integer." -/
def into_natural_big_integer (m : MemRgn) : Int :=
  (iterate_logical_bits m).foldl (fun acc b => 2 * acc + (if b then 1 else 0)) 0

/-- Modelled from the spec: `into_numeric_big_integer` is not under src/.
Spec §4.2.8: two's-complement read; when the leading bit is 1, "compute
raw − 1, preserve bit length by left-padding, invert, reinterpret as positive
and negate". -/
def into_numeric_big_integer (m : MemRgn) : Int :=
  let raw := into_natural_big_integer m
  let n := op_bit_length m
  if (iterate_logical_bits m).headD false then
    -(((2 : Int) ^ n - 1) - (raw - 1))
  else
    raw

/-- The three facade classes of idiomatic.py that the equality claim ranges
over; `Signed` subclasses `Unsigned`, which subclasses `Mem`. -/
inductive FacadeTy where
  | mem
  | unsigned
  | signed
deriving DecidableEq, Repr

/-- Python `isinstance(value_of_type_t, class_c)` for the facade hierarchy
`Signed <: Unsigned <: Mem`. -/
def facade_isinstance (t c : FacadeTy) : Bool :=
  match c with
  | .mem => true
  | .unsigned => t == .unsigned || t == .signed
  | .signed => t == .signed

/-- A facade value: its runtime class and the backing region. -/
structure Facade where
  ty : FacadeTy
  rgn : MemRgn
deriving DecidableEq, Repr

/-- A value appearing on the right of `==`: a facade value, a Python `int`,
or any object without an `__int__` method. -/
inductive PyVal where
  | facade (f : Facade)
  | intVal (n : Int)
  | other
deriving DecidableEq, Repr

/-- `int(facade)`: idiomatic.py gives `Mem.__int__` (inherited by `Unsigned`)
as `into_natural_big_integer` and `Signed.__int__` as
`into_numeric_big_integer`. -/
def facade_int (f : Facade) : Int :=
  match f.ty with
  | .signed => into_numeric_big_integer f.rgn
  | _ => into_natural_big_integer f.rgn

/-- `int(that)` for a right-hand value that has `__int__` (facades and ints;
the `other` branch is never reached by `facade_eq`). -/
def pyval_int (v : PyVal) : Int :=
  match v with
  | .facade f => facade_int f
  | .intVal n => n
  | .other => 0

/-- The `__eq__` method invoked on a facade value `self` (dispatched on its
runtime class), from idiomatic.py: `Mem.__eq__` (lines 146-151) requires
`isinstance(that, type(self))` and compares `rgn.bytes`; `Unsigned.__eq__`
(lines 585-594) and `Signed.__eq__` (lines 818-827) compare `rgn.bytes` for
instances of their own class and otherwise fall back to `int(self) ==
int(that)` whenever `that` has `__int__`, raising `MemException` only when it
does not. -/
def facade_eq (self : Facade) (that : PyVal) : Except PyError Bool :=
  match self.ty with
  | .mem =>
    match that with
    | .facade f => .ok (decide (self.rgn.bytes = f.rgn.bytes))
    | _ => .error .memException
  | .unsigned =>
    match that with
    | .facade f =>
      if facade_isinstance f.ty .unsigned then .ok (decide (self.rgn.bytes = f.rgn.bytes))
      else .ok (decide (facade_int self = facade_int f))
    | .intVal n => .ok (decide (facade_int self = n))
    | .other => .error .memException
  | .signed =>
    match that with
    | .facade f =>
      if facade_isinstance f.ty .signed then .ok (decide (self.rgn.bytes = f.rgn.bytes))
      else .ok (decide (facade_int self = facade_int f))
    | .intVal n => .ok (decide (facade_int self = n))
    | .other => .error .memException

/-- Decidable equality of fallible results (used to state and check concrete
evaluations). -/
instance {ε α : Type} [DecidableEq ε] [DecidableEq α] : DecidableEq (Except ε α) :=
  fun a b =>
    match a, b with
    | .ok x, .ok y =>
      if h : x = y then .isTrue (by rw [h]) else .isFalse (by simp [h])
    | .error e, .error f =>
      if h : e = f then .isTrue (by rw [h]) else .isFalse (by simp [h])
    | .ok _, .error _ => .isFalse (by simp)
    | .error _, .ok _ => .isFalse (by simp)

/-- Slot of a region at absolute position `j` (groups flattened); `none` past
the end. -/
def slot_at (m : MemRgn) (j : Nat) : Slot :=
  m.bytes.flatten.getD j none

/-- Dispatch behaviour of the facade `__eq__` methods described by the
*right-hand* value: a facade instance of `self`'s class compares by raw
`rgn.bytes` equality (for a `Mem` receiver this covers every facade, since
`Unsigned` and `Signed` are subclasses); any other facade falls back to
numeric comparison via `int(...)`; a plain `int` compares numerically except
under a `Mem` receiver, which raises; a value without `__int__` raises. -/
def facade_eq_described (self : Facade) (that : PyVal) : Except PyError Bool :=
  match that with
  | .facade f =>
    .ok (if facade_isinstance f.ty self.ty then decide (self.rgn.bytes = f.rgn.bytes)
         else decide (facade_int self = facade_int f))
  | .intVal n =>
    if self.ty = .mem then .error .memException else .ok (decide (facade_int self = n))
  | .other => .error .memException

/-- Example group "10000000". -/
def ex_bit1 : List Slot := some true :: List.replicate 7 (some false)

/-- Example group "00000000". -/
def ex_zero8 : List Slot := List.replicate 8 (some false)

/-- Example 8-bit region "10000000". -/
def ex_mem8 : MemRgn := ⟨[ex_bit1]⟩

/-- Example 16-bit region "10000000 00000000". -/
def ex_mem16 : MemRgn := ⟨[ex_bit1, ex_zero8]⟩

/-- Example 1-bit region "1". -/
def ex_mem1 : MemRgn := ⟨[some true :: List.replicate 7 none]⟩

/-- Example 1-bit region "0" (a fill bit). -/
def ex_fill0 : MemRgn := ⟨[some false :: List.replicate 7 none]⟩

/-- Example 4-bit region "1111" (a payload). -/
def ex_pay4 : MemRgn := ⟨[List.replicate 4 (some true) ++ List.replicate 4 none]⟩

/-- The canonical null region: zero groups. -/
def null_region : MemRgn := ⟨[]⟩

/-- Result of `op_set_bits ex_mem16 6 ex_pay4`: "10000011 11000000". -/
def ex_set_result : MemRgn :=
  ⟨[[some true, some false, some false, some false, some false, some false,
     some true, some true],
    [some true, some true, some false, some false, some false, some false,
     some false, some false]]⟩

/-! ## Helper lemmas about the chunking functions -/

theorem flatten_chunks_of_8 (l : List Slot) : (chunks_of_8 l).flatten = l := by
  induction l using chunks_of_8.induct with
  | case1 => simp [chunks_of_8]
  | case2 a b c d e f g h i rest ih => simp [chunks_of_8, ih]
  | case3 l h1 h2 =>
    rcases l with _ | ⟨a, _ | ⟨b, _ | ⟨c, _ | ⟨d, _ | ⟨e, _ | ⟨f, _ | ⟨g, _ | ⟨h, _ | ⟨i, rest⟩⟩⟩⟩⟩⟩⟩⟩⟩
    · exact absurd rfl h1
    all_goals first
      | exact absurd rfl (h2 a b c d e f g h i rest)
      | simp [chunks_of_8]

theorem take_eight_append_replicate (s : List Slot) (h : s.length ≤ 8) :
    (s ++ List.replicate 8 none).take 8 = s ++ List.replicate (8 - s.length) none := by
  rw [List.take_append_eq_append_take, List.take_of_length_le h, List.take_replicate]
  have h2 : min (8 - s.length) 8 = 8 - s.length := by omega
  rw [h2]

theorem filterMap_id_cons_congr (a : Slot) {l1 l2 : List Slot}
    (h : l1.filterMap id = l2.filterMap id) :
    (a :: l1).filterMap id = (a :: l2).filterMap id := by
  cases a <;> simp [h]

theorem filterMap_flatten_regroup_final_pad (s : List Slot) :
    ((regroup_final_pad s).flatten).filterMap id = s.filterMap id := by
  induction s using regroup_final_pad.induct with
  | case1 a b c d e f g h i rest ih =>
    simp only [regroup_final_pad, List.flatten_cons]
    have hsplit :
        (a :: b :: c :: d :: e :: f :: g :: h :: i :: rest : List Slot) =
          [a, b, c, d, e, f, g, h] ++ (i :: rest) := rfl
    rw [hsplit, List.filterMap_append, List.filterMap_append, ih]
  | case2 bits h1 =>
    rcases bits with _ | ⟨a, _ | ⟨b, _ | ⟨c, _ | ⟨d, _ | ⟨e, _ | ⟨f, _ | ⟨g, _ | ⟨h, _ | ⟨i, rest⟩⟩⟩⟩⟩⟩⟩⟩⟩
    all_goals first
      | exact absurd rfl (h1 a b c d e f g h i rest)
      | (simp [regroup_final_pad]
         repeat' apply filterMap_id_cons_congr
         all_goals rfl)

theorem filterMap_flatten_group_bits_into_bytes (s : List Slot) :
    ((group_bits_into_bytes s).flatten).filterMap id = s.filterMap id := by
  induction s using group_bits_into_bytes.induct with
  | case1 => simp [group_bits_into_bytes]
  | case2 a b c d e f g h i rest ih =>
    simp only [group_bits_into_bytes, List.flatten_cons]
    have hsplit :
        (a :: b :: c :: d :: e :: f :: g :: h :: i :: rest : List Slot) =
          [a, b, c, d, e, f, g, h] ++ (i :: rest) := rfl
    rw [hsplit, List.filterMap_append, List.filterMap_append, ih]
  | case3 l h0 h1 =>
    rcases l with _ | ⟨a, _ | ⟨b, _ | ⟨c, _ | ⟨d, _ | ⟨e, _ | ⟨f, _ | ⟨g, _ | ⟨h, _ | ⟨i, rest⟩⟩⟩⟩⟩⟩⟩⟩⟩
    · exact absurd rfl h0
    all_goals first
      | exact absurd rfl (h1 a b c d e f g h i rest)
      | (simp [group_bits_into_bytes]
         repeat' apply filterMap_id_cons_congr
         all_goals rfl)

theorem all_length_8_regroup_final_pad (s : List Slot) :
    (regroup_final_pad s).all (fun byte => byte.length == 8) = true := by
  induction s using regroup_final_pad.induct with
  | case1 a b c d e f g h i rest ih => simp_all [regroup_final_pad]
  | case2 bits h1 =>
    rcases bits with _ | ⟨a, _ | ⟨b, _ | ⟨c, _ | ⟨d, _ | ⟨e, _ | ⟨f, _ | ⟨g, _ | ⟨h, _ | ⟨i, rest⟩⟩⟩⟩⟩⟩⟩⟩⟩
    all_goals first
      | exact absurd rfl (h1 a b c d e f g h i rest)
      | simp [regroup_final_pad]

theorem chunks_of_8_cons9 (a b c d e f g h i : Slot) (rest : List Slot) :
    chunks_of_8 (a :: b :: c :: d :: e :: f :: g :: h :: i :: rest) =
      [a, b, c, d, e, f, g, h] :: chunks_of_8 (i :: rest) := by
  simp [chunks_of_8]

theorem regroup_final_pad_eq_chunks (s : List Slot) (hs : s ≠ []) :
    regroup_final_pad s =
      chunks_of_8 (s ++ List.replicate ((8 - s.length % 8) % 8) none) := by
  induction s using regroup_final_pad.induct with
  | case1 a b c d e f g h i rest ih =>
    have hlen :
        (a :: b :: c :: d :: e :: f :: g :: h :: i :: rest : List Slot).length % 8 =
          (i :: rest : List Slot).length % 8 := by
      simp [List.length_cons]
      omega
    rw [regroup_final_pad, hlen]
    have hne : (i :: rest : List Slot) ≠ [] := by simp
    rw [ih hne]
    have hsplit :
        ((a :: b :: c :: d :: e :: f :: g :: h :: i :: rest : List Slot) ++
            List.replicate ((8 - (i :: rest : List Slot).length % 8) % 8) none) =
          a :: b :: c :: d :: e :: f :: g :: h :: i ::
            (rest ++ List.replicate ((8 - (i :: rest : List Slot).length % 8) % 8) none) := by
      simp
    rw [hsplit, chunks_of_8_cons9]
    simp
  | case2 bits h1 =>
    rcases bits with _ | ⟨a, _ | ⟨b, _ | ⟨c, _ | ⟨d, _ | ⟨e, _ | ⟨f, _ | ⟨g, _ | ⟨h, _ | ⟨i, rest⟩⟩⟩⟩⟩⟩⟩⟩⟩
    · exact absurd rfl hs
    all_goals first
      | exact absurd rfl (h1 a b c d e f g h i rest)
      | simp [regroup_final_pad, chunks_of_8, List.replicate_succ]

theorem filterMap_id_append_replicate_none (l : List Slot) (k : Nat) :
    (l ++ List.replicate k none).filterMap id = l.filterMap id := by
  rw [List.filterMap_append]
  have h : (List.replicate k (none : Slot)).filterMap id = [] := by
    induction k with
    | zero => rfl
    | succ n ih => simp [List.replicate_succ, ih]
  rw [h, List.append_nil]

theorem chunks_of_8_length (l : List Slot) :
    (chunks_of_8 l).length = (l.length + 7) / 8 := by
  induction l using chunks_of_8.induct with
  | case1 => simp [chunks_of_8]
  | case2 a b c d e f g h i rest ih =>
    rw [chunks_of_8_cons9]
    simp only [List.length_cons, ih]
    omega
  | case3 l h1 h2 =>
    rcases l with _ | ⟨a, _ | ⟨b, _ | ⟨c, _ | ⟨d, _ | ⟨e, _ | ⟨f, _ | ⟨g, _ | ⟨h, _ | ⟨i, rest⟩⟩⟩⟩⟩⟩⟩⟩⟩
    · exact absurd rfl h1
    all_goals first
      | exact absurd rfl (h2 a b c d e f g h i rest)
      | simp [chunks_of_8]

/-! ## Structure of valid regions -/

theorem validate_parts (mem : MemRgn) (h : validate_memory mem = true) :
    (mem.bytes.all (fun byte => byte.length == 8) = true) ∧
    (mem.bytes.any (fun byte => byte.any (fun s => s.isSome)) = true) ∧
    mem.bytes = validate_regroup (iterate_logical_bits mem) := by
  have h2 := h
  simp only [validate_memory, Bool.and_eq_true, decide_eq_true_eq] at h2
  exact ⟨h2.1.1, h2.1.2, h2.2⟩

theorem validate_logical_ne_nil (mem : MemRgn) (h : validate_memory mem = true) :
    iterate_logical_bits mem ≠ [] := by
  obtain ⟨-, hany, -⟩ := validate_parts mem h
  intro hnil
  rw [List.any_eq_true] at hany
  obtain ⟨byte, hbyte, hs⟩ := hany
  rw [List.any_eq_true] at hs
  obtain ⟨s, hsmem, hsome⟩ := hs
  have hflat : s ∈ mem.bytes.flatten := List.mem_flatten.mpr ⟨byte, hbyte, hsmem⟩
  have := (List.filterMap_eq_nil_iff.mp hnil) s hflat
  simp only [id_eq] at this
  rw [this] at hsome
  simp at hsome

theorem validate_bit_length_pos (mem : MemRgn) (h : validate_memory mem = true) :
    1 ≤ op_bit_length mem := by
  have := validate_logical_ne_nil mem h
  rw [op_bit_length]
  cases hl : iterate_logical_bits mem with
  | nil => exact absurd hl this
  | cons a l => simp

theorem validate_flatten (mem : MemRgn) (h : validate_memory mem = true) :
    mem.bytes.flatten =
      (iterate_logical_bits mem).map some ++
        List.replicate ((8 - op_bit_length mem % 8) % 8) none := by
  obtain ⟨-, -, heq⟩ := validate_parts mem h
  conv_lhs => rw [heq]
  rw [validate_regroup, flatten_chunks_of_8]
  have hlen : op_bit_length mem = (iterate_logical_bits mem).length := rfl
  by_cases hm : (iterate_logical_bits mem).length % 8 > 0
  · rw [if_pos hm]
    have hpad : (8 - op_bit_length mem % 8) % 8 =
        8 - (iterate_logical_bits mem).length % 8 := by
      rw [hlen]; omega
    rw [hpad]
  · rw [if_neg hm]
    have hpad : (8 - op_bit_length mem % 8) % 8 = 0 := by rw [hlen]; omega
    rw [hpad]
    simp

theorem validate_byte_length (mem : MemRgn) (h : validate_memory mem = true) :
    op_byte_length mem = (op_bit_length mem + 7) / 8 := by
  obtain ⟨-, -, heq⟩ := validate_parts mem h
  rw [op_byte_length, heq, validate_regroup, chunks_of_8_length]
  simp only [List.length_append, List.length_map, List.length_replicate, op_bit_length]
  by_cases hm : (iterate_logical_bits mem).length % 8 > 0
  · rw [if_pos hm]
    simp only [List.length_replicate]
    omega
  · rw [if_neg hm]
    simp only [List.length_nil]
    try omega

/-! ## The selection performed by `op_get_bits` -/

theorem select_slots_append (start stop : Int) (l1 l2 : List Slot) (c : Nat) :
    select_slots start stop c (l1 ++ l2) =
      select_slots start stop c l1 ++ select_slots start stop (c + l1.length) l2 := by
  induction l1 generalizing c with
  | nil => simp [select_slots]
  | cons a l1 ih =>
    simp only [List.cons_append, select_slots, List.length_cons, List.append_eq]
    rw [ih (c + 1)]
    have harith : c + 1 + l1.length = c + (l1.length + 1) := by omega
    rw [harith, List.append_assoc]

theorem flatten_get_bits_groups (start stop : Int) (bytes : List (List Slot)) (c : Nat) :
    (get_bits_groups start stop c bytes).flatten =
      select_slots start stop c bytes.flatten := by
  induction bytes generalizing c with
  | nil => simp [get_bits_groups, select_slots]
  | cons byte rest ih =>
    simp only [get_bits_groups, List.flatten_cons, List.flatten_append,
      flatten_chunks_of_8, ih]
    rw [select_slots_append]

theorem select_slots_eq_slice (start stop : Int) (h0 : 0 ≤ start) (hss : start ≤ stop)
    (l : List Slot) (c : Nat) :
    select_slots start stop c l =
      (l.drop (start - c).toNat).take ((stop - c).toNat - (start - c).toNat) := by
  induction l generalizing c with
  | nil => simp [select_slots]
  | cons a l ih =>
    by_cases h1 : start ≤ (c : Int)
    · by_cases h2 : (c : Int) < stop
      · have hd : (start - (c : Int)).toNat = 0 := by omega
        have hd2 : (start - (((c + 1 : Nat)) : Int)).toNat = 0 := by
          push_cast
          omega
        have ht : (stop - (c : Int)).toNat = (stop - (((c + 1 : Nat)) : Int)).toNat + 1 := by
          push_cast
          omega
        rw [select_slots, if_pos (show start ≤ (c : Int) ∧ (c : Int) < stop from ⟨h1, h2⟩),
          ih (c + 1), hd, hd2, ht]
        simp [List.take_succ_cons]
      · have ht : ((stop - (c : Int)).toNat - (start - (c : Int)).toNat) = 0 := by omega
        have ht2 : ((stop - (((c + 1 : Nat)) : Int)).toNat -
            (start - (((c + 1 : Nat)) : Int)).toNat) = 0 := by
          push_cast
          omega
        rw [select_slots, if_neg (fun hc => h2 hc.2), ih (c + 1), ht, ht2]
        simp
    · have ht : ((stop - (c : Int)).toNat - (start - (c : Int)).toNat) =
          ((stop - (((c + 1 : Nat)) : Int)).toNat -
            (start - (((c + 1 : Nat)) : Int)).toNat) := by
        push_cast
        omega
      have hd : (start - (c : Int)).toNat = (start - (((c + 1 : Nat)) : Int)).toNat + 1 := by
        push_cast
        omega
      rw [select_slots, if_neg (fun hc => h1 hc.1), ih (c + 1), ht, hd]
      simp [List.drop_succ_cons]

theorem filterMap_flatten_pad_last_group (bs : List (List Slot)) :
    ((pad_last_group bs).flatten).filterMap id = (bs.flatten).filterMap id := by
  cases hgl : bs.getLast? with
  | none => rw [pad_last_group, hgl]
  | some last =>
    have hne : bs ≠ [] := by
      intro hnil
      rw [hnil] at hgl
      simp at hgl
    have hsplit : bs.dropLast ++ [last] = bs := by
      have hl : bs.getLast hne = last := by
        have h2 := List.getLast?_eq_getLast bs hne
        rw [hgl] at h2
        exact (Option.some.injEq _ _ ▸ h2.symm :)
      rw [← hl]
      exact List.dropLast_append_getLast hne
    simp only [pad_last_group, hgl]
    by_cases hlen : last.length < 8
    · rw [if_pos hlen]
      conv_rhs => rw [← hsplit]
      rw [List.flatten_append, List.flatten_append]
      simp only [List.flatten_cons, List.flatten_nil, List.append_nil]
      rw [List.filterMap_append, List.filterMap_append]
      rw [take_eight_append_replicate last (by omega)]
      rw [filterMap_id_append_replicate_none]
    · rw [if_neg hlen]

/-! ## The rewriting performed by `op_set_bits` -/

theorem set_slots_append (offset ending : Int) (payload : MemRgn)
    (l1 l2 : List Slot) (c : Nat) :
    set_slots offset ending payload c (l1 ++ l2) =
      set_slots offset ending payload c l1 ++
        set_slots offset ending payload (c + l1.length) l2 := by
  induction l1 generalizing c with
  | nil => simp [set_slots]
  | cons a l1 ih =>
    simp only [List.cons_append, set_slots, List.length_cons, List.append_eq]
    rw [ih (c + 1)]
    have harith : c + 1 + l1.length = c + (l1.length + 1) := by omega
    rw [harith]

theorem flatten_set_bits_groups (offset ending : Int) (payload : MemRgn)
    (bytes : List (List Slot)) (c : Nat) :
    (set_bits_groups offset ending payload c bytes).flatten =
      set_slots offset ending payload c bytes.flatten := by
  induction bytes generalizing c with
  | nil => simp [set_bits_groups, set_slots]
  | cons byte rest ih =>
    simp only [set_bits_groups, List.flatten_cons, List.flatten_append,
      flatten_chunks_of_8, ih]
    rw [set_slots_append]

theorem set_slots_getD (offset ending : Int) (payload : MemRgn)
    (l : List Slot) (c j : Nat) :
    (set_slots offset ending payload c l).getD j none =
      if j < l.length then
        (if offset ≤ ((c + j : Nat) : Int) ∧ ((c + j : Nat) : Int) < ending then
           payload_bit_at payload (((c + j : Nat) : Int) - offset)
         else l.getD j none)
      else none := by
  induction l generalizing c j with
  | nil => simp [set_slots]
  | cons a l ih =>
    cases j with
    | zero =>
      simp only [set_slots, List.getD_cons_zero, List.length_cons, Nat.add_zero]
      rw [if_pos (Nat.succ_pos l.length)]
    | succ j =>
      simp only [set_slots, List.getD_cons_succ, List.length_cons]
      rw [ih (c + 1) j]
      have harith : c + 1 + j = c + (j + 1) := by omega
      rw [harith]
      by_cases hj : j < l.length
      · rw [if_pos hj, if_pos (show j + 1 < l.length + 1 from by omega)]
      · rw [if_neg hj, if_neg (show ¬(j + 1 < l.length + 1) from by omega)]

/-! ## Further shared helpers -/

theorem filterMap_id_map_some (l : List Bool) : (l.map some).filterMap id = l := by
  induction l with
  | nil => rfl
  | cons a l ih => simp [ih]

theorem any_isSome_of_filterMap_ne_nil (bs : List (List Slot))
    (h : (bs.flatten.filterMap id) ≠ []) :
    bs.any (fun byte => byte.any (fun s => s.isSome)) = true := by
  by_contra hc
  rw [Bool.not_eq_true] at hc
  apply h
  rw [List.filterMap_eq_nil_iff]
  intro a ha
  rw [List.mem_flatten] at ha
  obtain ⟨byte, hbyte, hmem⟩ := ha
  rw [List.any_eq_false] at hc
  have h2 := hc byte hbyte
  simp only [List.any_eq_true, not_exists, not_and, Bool.not_eq_true] at h2
  have h3 := h2 a hmem
  have h4 : a = none := by cases a <;> simp_all
  simp [h4]

/-- Key fact used for concatenation: the region built by regrouping a
non-empty list of logical bits is valid and its logical bits are the input. -/
theorem validate_regroup_map_some (bits : List Bool) (hne : bits ≠ []) :
    iterate_logical_bits ⟨regroup_final_pad (bits.map some)⟩ = bits ∧
    validate_memory ⟨regroup_final_pad (bits.map some)⟩ = true := by
  have hiter : iterate_logical_bits ⟨regroup_final_pad (bits.map some)⟩ = bits := by
    rw [iterate_logical_bits, filterMap_flatten_regroup_final_pad, filterMap_id_map_some]
  refine ⟨hiter, ?_⟩
  rw [validate_memory, Bool.and_eq_true, Bool.and_eq_true]
  refine ⟨⟨all_length_8_regroup_final_pad _, ?_⟩, ?_⟩
  · apply any_isSome_of_filterMap_ne_nil
    rw [← iterate_logical_bits, hiter]
    exact hne
  · rw [decide_eq_true_eq, hiter, validate_regroup]
    have hmne : bits.map some ≠ [] := by simpa using hne
    have hpad : List.replicate ((8 - (bits.map some).length % 8) % 8) (none : Slot) =
        (if bits.length % 8 > 0 then List.replicate (8 - bits.length % 8) none else []) := by
      simp only [List.length_map]
      by_cases hm : bits.length % 8 > 0
      · rw [if_pos hm]
        congr 1
        omega
      · rw [if_neg hm]
        have h0 : ((8 - bits.length % 8) % 8) = 0 := by omega
        rw [h0]
        rfl
    rw [regroup_final_pad_eq_chunks _ hmne, hpad]

theorem nat_bit_length_aux_lt (fuel : Nat) :
    ∀ n : Nat, n ≤ fuel → n < 2 ^ nat_bit_length_aux fuel n := by
  induction fuel with
  | zero =>
    intro n hn
    interval_cases n
    simp [nat_bit_length_aux]
  | succ fuel ih =>
    intro n hn
    by_cases h0 : n = 0
    · subst h0
      simp [nat_bit_length_aux]
    · rw [nat_bit_length_aux, if_neg h0]
      have hhalf : n / 2 ≤ fuel := by omega
      have := ih (n / 2) hhalf
      have hpow : 2 ^ (nat_bit_length_aux fuel (n / 2) + 1) =
          2 * 2 ^ nat_bit_length_aux fuel (n / 2) := by ring
      rw [hpow]
      omega

theorem nat_bit_length_aux_min (fuel : Nat) :
    ∀ n : Nat, n ≤ fuel → 0 < n → 2 ^ nat_bit_length_aux fuel n ≤ 2 * n := by
  induction fuel with
  | zero =>
    intro n hn h0
    omega
  | succ fuel ih =>
    intro n hn h0
    rw [nat_bit_length_aux, if_neg (by omega)]
    by_cases h1 : n / 2 = 0
    · rw [h1]
      have hz : nat_bit_length_aux fuel 0 = 0 := by
        cases fuel <;> simp [nat_bit_length_aux]
      rw [hz]
      omega
    · have hhalf : n / 2 ≤ fuel := by omega
      have := ih (n / 2) hhalf (by omega)
      have hpow : 2 ^ (nat_bit_length_aux fuel (n / 2) + 1) =
          2 * 2 ^ nat_bit_length_aux fuel (n / 2) := by ring
      rw [hpow]
      omega

/-! ## Claim theorems -/

/-- C7: `op_reverse_bits` is an involution: for every region (in particular
every valid region, partial-byte regions included), applying it twice yields
the original region back. -/
theorem op_reverse_bits_involution (mem : MemRgn) :
    op_reverse_bits (op_reverse_bits mem) = mem := by
  cases mem with
  | mk bytes => simp [op_reverse_bits, op_transform]

/-- C3: evaluation of the code at the failing input.  For the valid 8-bit
region "10000000", `op_truncate` to length 0 does not give the canonical null
region (zero groups, byte_length 0): it gives one group of eight ⊥ slots,
with byte_length 1, which the library's own `validate_memory` rejects. -/
theorem op_truncate_zero_bottom_group :
    validate_memory ex_mem8 = true ∧
    op_truncate ex_mem8 0 = .ok ⟨[List.replicate 8 none]⟩ ∧
    op_bit_length (ok_region (op_truncate ex_mem8 0)) = 0 ∧
    op_byte_length (ok_region (op_truncate ex_mem8 0)) = 1 ∧
    validate_memory (ok_region (op_truncate ex_mem8 0)) = false := by
  decide

/-- C4: `op_extend` never returns a region.  Whenever the fill region passes
the bit-length-1 check, evaluating line 334 of von_neumann.py raises a
`TypeError` (a Python list minus an int), so the claimed extension behaviour
never happens. -/
theorem op_extend_always_raises (mem : MemRgn) (amount : Int) (fill : MemRgn)
    (h : op_bit_length fill = 1) :
    op_extend mem amount fill = .error .typeError := by
  simp [op_extend, h]

/-- Witness for C4 at a concrete input: a valid 8-bit region extended by 2
with a valid one-bit zero fill raises `TypeError`. -/
theorem op_extend_always_raises_witness :
    op_bit_length ex_fill0 = 1 ∧ validate_memory ex_mem8 = true ∧
    op_extend ex_mem8 2 ex_fill0 = .error .typeError :=
  ⟨by decide, by decide, op_extend_always_raises ex_mem8 2 ex_fill0 (by decide)⟩

/-- C2: evaluation of the code at the failing input.  On the valid 16-bit
region "10000000 00000000" with the in-contract range [4, 12), `op_get_bits`
returns a region whose groups have 4 and 8 slots — the bits are not re-packed
into 8-slot groups, and the library's own `validate_memory` rejects the
output. -/
theorem op_get_bits_unaligned_partial_groups :
    validate_memory ex_mem16 = true ∧
    (0 ≤ (4 : Int) ∧ (4 : Int) ≤ 12 ∧ (12 : Int) ≤ (op_bit_length ex_mem16 : Int)) ∧
    op_get_bits ex_mem16 4 12 =
      .ok ⟨[List.replicate 4 (some false),
            List.replicate 4 (some false) ++ List.replicate 4 none]⟩ ∧
    (ok_region (op_get_bits ex_mem16 4 12)).bytes.map List.length = [4, 8] ∧
    validate_memory (ok_region (op_get_bits ex_mem16 4 12)) = false := by
  decide

/-- C8 counterexample: the natural unsigned big-integer codec at value 0 with
bit length None returns the null region of bit_length 0, not a one-bit
region. -/
theorem from_natural_big_integer_zero_null :
    from_natural_big_integer 0 none = .ok null_region ∧
    op_bit_length (ok_region (from_natural_big_integer 0 none)) = 0 := by
  decide

/-- C8 (amended): for every v ≥ 0, the natural big-integer codec with bit
length None succeeds and returns a region whose bit_length is Python's
`v.bit_length()` — for v > 0 this is the least number of bits that encodes v
(witnessed by the two bounds below), while for v = 0 it is 0: the null
region, not a one-bit region. -/
theorem from_natural_big_integer_none_min_bits (v : Int) (hv : 0 ≤ v) :
    (from_natural_big_integer v none).isOk = true ∧
    op_bit_length (ok_region (from_natural_big_integer v none)) = py_int_bit_length v ∧
    v.natAbs < 2 ^ py_int_bit_length v ∧
    (0 < v → 2 ^ py_int_bit_length v ≤ 2 * v.natAbs) := by
  have hneg : ¬(v < 0 ∧ (none : Option Int) = none) := fun hc => absurd hc.1 (by omega)
  have hok : from_natural_big_integer v none =
      .ok ⟨group_bits_into_bytes
        ((List.range ((py_int_bit_length v : Int)).toNat).map
          (fun bit_index => some (decide (Int.land v ((2 : Int) ^ bit_index) ≠ 0))))⟩ := by
    rw [from_natural_big_integer, if_neg hneg]
    simp only [Option.getD_none]
    rw [if_pos le_rfl]
  refine ⟨by rw [hok]; rfl, ?_, ?_, ?_⟩
  · rw [hok]
    show op_bit_length ⟨_⟩ = _
    rw [op_bit_length, iterate_logical_bits]
    rw [filterMap_flatten_group_bits_into_bytes]
    have hmap : (List.range ((py_int_bit_length v : Int)).toNat).map
        (fun bit_index => some (decide (Int.land v ((2 : Int) ^ bit_index) ≠ 0))) =
        ((List.range ((py_int_bit_length v : Int)).toNat).map
          (fun bit_index => decide (Int.land v ((2 : Int) ^ bit_index) ≠ 0))).map some := by
      rw [List.map_map]
      rfl
    rw [hmap, filterMap_id_map_some]
    simp
  · exact nat_bit_length_aux_lt v.natAbs v.natAbs le_rfl
  · intro h0
    exact nat_bit_length_aux_min v.natAbs v.natAbs le_rfl (by omega)

/-- Witness for C8 at v = 5 (bit_length 3). -/
theorem from_natural_big_integer_none_min_bits_witness :
    (0 : Int) ≤ 5 ∧
    ((from_natural_big_integer 5 none).isOk = true ∧
      op_bit_length (ok_region (from_natural_big_integer 5 none)) = py_int_bit_length 5 ∧
      (5 : Int).natAbs < 2 ^ py_int_bit_length 5 ∧
      (0 < (5 : Int) → 2 ^ py_int_bit_length 5 ≤ 2 * (5 : Int).natAbs)) :=
  ⟨by decide, from_natural_big_integer_none_min_bits 5 (by decide)⟩

/-- C9 counterexample: `Mem.__eq__` applied to a `Mem` and an `Unsigned` with
identical backing regions returns True (region comparison) even though the
facade types differ, and `Unsigned.__eq__` applied to a plain int returns a
boolean (numeric comparison) instead of raising. -/
theorem facade_eq_cross_type_counterexample :
    facade_eq ⟨.mem, ex_mem1⟩ (.facade ⟨.unsigned, ex_mem1⟩) = .ok true ∧
    FacadeTy.mem ≠ FacadeTy.unsigned ∧
    facade_eq ⟨.unsigned, ex_mem8⟩ (.intVal 128) = .ok true := by
  decide

/-- C9 (amended): the facade `__eq__` dispatch follows
`facade_eq_described`: a right-hand facade that is an instance of the
receiver's class (subclasses included) compares by bitwise region equality;
any other facade, and any plain int under `Unsigned`/`Signed`, compares
numerically via `int(...)`; only a `Mem` receiver with a non-facade value, or
any receiver with a value lacking `__int__`, raises the unlike-compare
error. -/
theorem facade_eq_matches_description (self : Facade) (that : PyVal) :
    facade_eq self that = facade_eq_described self that := by
  obtain ⟨ty, rgn⟩ := self
  cases ty <;> cases that <;>
    simp [facade_eq, facade_eq_described, facade_isinstance] <;>
    (try (split <;> rfl))

/-- C10 counterexample: `+` on the Mem facade calls `op_concatenate`, which
validates both operands; the null (empty) region fails that validation, so
concatenating with the empty region on either side raises `MemException`
instead of returning the other operand. -/
theorem op_concatenate_null_raises :
    op_concatenate null_region ex_mem1 = .error .memException ∧
    op_concatenate ex_mem1 null_region = .error .memException ∧
    op_bit_length null_region = 0 ∧
    validate_memory ex_mem1 = true := by
  decide

/-- C10 (amended): for valid (hence non-null) regions a and b, `a + b`
succeeds and is the concatenation: its logical bits are the bits of a
followed by the bits of b, its bit_length is the sum, and the result is again
a valid region.  When either operand is the null region, `op_concatenate`
raises `MemException` instead of returning the other operand. -/
theorem op_concatenate_appends (a b : MemRgn)
    (ha : validate_memory a = true) (hb : validate_memory b = true) :
    (op_concatenate a b).isOk = true ∧
    iterate_logical_bits (ok_region (op_concatenate a b)) =
      iterate_logical_bits a ++ iterate_logical_bits b ∧
    op_bit_length (ok_region (op_concatenate a b)) =
      op_bit_length a + op_bit_length b ∧
    validate_memory (ok_region (op_concatenate a b)) = true := by
  have hne : iterate_logical_bits a ++ iterate_logical_bits b ≠ [] := by
    have h1 := validate_logical_ne_nil a ha
    intro hc
    rw [List.append_eq_nil] at hc
    exact h1 hc.1
  obtain ⟨hiter, hval⟩ :=
    validate_regroup_map_some (iterate_logical_bits a ++ iterate_logical_bits b) hne
  have hok : op_concatenate a b =
      .ok ⟨regroup_final_pad ((iterate_logical_bits a ++ iterate_logical_bits b).map some)⟩ := by
    rw [op_concatenate, if_neg (by rw [ha]; simp), if_neg (by rw [hb]; simp)]
    rw [if_neg (by rw [hval]; simp)]
  rw [hok]
  refine ⟨rfl, ?_, ?_, ?_⟩
  · exact hiter
  · show op_bit_length ⟨_⟩ = _
    rw [op_bit_length, hiter, List.length_append]
    rfl
  · exact hval

/-- Witness for C10 at concrete inputs: "1" ++ "10000000" concatenates to a
9-bit region. -/
theorem op_concatenate_appends_witness :
    validate_memory ex_mem1 = true ∧ validate_memory ex_mem8 = true ∧
    ((op_concatenate ex_mem1 ex_mem8).isOk = true ∧
      iterate_logical_bits (ok_region (op_concatenate ex_mem1 ex_mem8)) =
        iterate_logical_bits ex_mem1 ++ iterate_logical_bits ex_mem8 ∧
      op_bit_length (ok_region (op_concatenate ex_mem1 ex_mem8)) =
        op_bit_length ex_mem1 + op_bit_length ex_mem8 ∧
      validate_memory (ok_region (op_concatenate ex_mem1 ex_mem8)) = true) :=
  ⟨by decide, by decide, op_concatenate_appends ex_mem1 ex_mem8 (by decide) (by decide)⟩

/-- C1: for every u16 value v, `from_natural_u16 v None` produces exactly the
region described by the spec — v packed into 2 little-endian bytes, each
byte's bits expanded LSB to MSB into one 8-slot group — and in particular the
region for 0b1_00010011 = 275 renders as "11001000 10000000". -/
theorem from_natural_u16_packs_le_lsb (v : Nat) (hv : v < 65536) :
    from_natural_u16 v none = .ok (spec_pack_u16_le_lsb v) ∧
    mem_str (spec_pack_u16_le_lsb 275) = "11001000 10000000" := by
  constructor
  · have hbyte : ∀ x : Nat, (identity_bits_from_numeric_byte x).filterMap id =
        (List.range 8).map (fun i => x.testBit i) := by
      intro x
      rw [identity_bits_from_numeric_byte]
      have hm : (List.range 8).map (fun i => some (x.testBit i)) =
          ((List.range 8).map (fun i => x.testBit i)).map some := by
        rw [List.map_map]
        rfl
      rw [hm, filterMap_id_map_some]
    have hbl : op_bit_length ⟨identity_bits_from_struct_field_H v⟩ = 16 := by
      rw [op_bit_length, iterate_logical_bits, identity_bits_from_struct_field_H]
      simp only [List.flatten_cons, List.flatten_nil, List.append_nil,
        List.filterMap_append, hbyte, List.length_append, List.length_map,
        List.length_range]
    have hid : op_identity ⟨identity_bits_from_struct_field_H v⟩ =
        ⟨identity_bits_from_struct_field_H v⟩ := by
      simp [op_identity, op_transform]
    rw [from_natural_u16]
    simp only [Option.getD_none]
    rw [hid, op_ensure_bit_length]
    simp only [hbl]
    rw [if_neg (by omega), if_neg (by omega)]
    have h256 : (2 : Nat) ^ 8 = 256 := by norm_num
    have hdiv : v / 256 % 256 = v / 256 := Nat.mod_eq_of_lt (by omega)
    simp only [identity_bits_from_struct_field_H, spec_pack_u16_le_lsb,
      identity_bits_from_numeric_byte, h256, hdiv]
  · decide

/-- Witness for C1 at v = 275. -/
theorem from_natural_u16_packs_le_lsb_witness :
    275 < 65536 ∧
    (from_natural_u16 275 none = .ok (spec_pack_u16_le_lsb 275) ∧
      mem_str (spec_pack_u16_le_lsb 275) = "11001000 10000000") :=
  ⟨by decide, from_natural_u16_packs_le_lsb 275 (by decide)⟩

/-- C6: frame property of `op_set_bits`.  For valid regions mem and payload
and an in-contract offset, whenever `op_set_bits` returns a region, every
slot at a position outside [offset, offset + bit_length(payload)) is the slot
of mem at the same position. -/
theorem op_set_bits_frame (mem payload : MemRgn) (offset : Int) (r : MemRgn) (j : Nat)
    (hv : validate_memory mem = true) (hp : validate_memory payload = true)
    (h0 : 0 ≤ offset)
    (hfit : offset + (op_bit_length payload : Int) ≤ (op_bit_length mem : Int))
    (hok : op_set_bits mem offset payload = .ok r)
    (hout : ¬(offset ≤ (j : Int) ∧ (j : Int) < offset + (op_bit_length payload : Int))) :
    slot_at r j = slot_at mem j := by
  simp only [op_set_bits] at hok
  by_cases hc1 : 0 ≤ offset ∧ offset < (op_bit_length mem : Int)
  · rw [if_pos hc1] at hok
    by_cases hc2 : offset + (op_bit_length payload : Int) ≤ (op_bit_length mem : Int)
    · rw [if_pos hc2] at hok
      injection hok with hr
      rw [← hr, slot_at, slot_at]
      show (set_bits_groups offset (offset + (op_bit_length payload : Int)) payload
        0 mem.bytes).flatten.getD j none = mem.bytes.flatten.getD j none
      rw [flatten_set_bits_groups, set_slots_getD]
      simp only [Nat.zero_add]
      by_cases hj : j < mem.bytes.flatten.length
      · rw [if_pos hj, if_neg hout]
      · rw [if_neg hj, List.getD_eq_default _ _ (by omega)]
    · rw [if_neg hc2] at hok
      exact absurd hok (by simp)
  · rw [if_neg hc1] at hok
    exact absurd hok (by simp)

/-- Witness for C6: writing the 4-bit payload "1111" at offset 6 of
"10000000 00000000" leaves position 3 unchanged. -/
theorem op_set_bits_frame_witness :
    validate_memory ex_mem16 = true ∧ validate_memory ex_pay4 = true ∧
    (0 : Int) ≤ 6 ∧
    (6 : Int) + (op_bit_length ex_pay4 : Int) ≤ (op_bit_length ex_mem16 : Int) ∧
    op_set_bits ex_mem16 6 ex_pay4 = .ok ex_set_result ∧
    ¬((6 : Int) ≤ ((3 : Nat) : Int) ∧
      ((3 : Nat) : Int) < 6 + (op_bit_length ex_pay4 : Int)) ∧
    slot_at ex_set_result 3 = slot_at ex_mem16 3 :=
  ⟨by decide, by decide, by decide, by decide, by decide, by decide,
    op_set_bits_frame ex_mem16 ex_pay4 6 ex_set_result 3 (by decide) (by decide)
      (by decide) (by decide) (by decide) (by decide)⟩

theorem isOk_ite_ok_error {c : Prop} [Decidable c] (x : MemRgn) :
    ((if c then (Except.ok x : Except PyError MemRgn)
      else .error .memException).isOk = true) ↔ c := by
  split <;> simp_all [Except.isOk, Except.toBool]

/-- Logical bits produced by the body of `op_get_bits` on a valid region with
an in-contract range: the slice [start, stop) of the logical bits. -/
theorem get_bits_body_slice (mem : MemRgn) (hv : validate_memory mem = true)
    (start stop : Int) (h0 : 0 ≤ start) (hss : start ≤ stop)
    (hstop : stop ≤ (op_bit_length mem : Int)) :
    ((pad_last_group (get_bits_groups start stop 0 mem.bytes)).flatten).filterMap id =
      ((iterate_logical_bits mem).drop start.toNat).take (stop.toNat - start.toNat) := by
  rw [filterMap_flatten_pad_last_group, flatten_get_bits_groups,
    select_slots_eq_slice _ _ h0 hss]
  have hc0 : ((0 : Nat) : Int) = 0 := rfl
  rw [hc0, Int.sub_zero, Int.sub_zero]
  rw [validate_flatten mem hv]
  have hdle : start.toNat ≤ ((iterate_logical_bits mem).map some).length := by
    simp only [List.length_map]
    show start.toNat ≤ op_bit_length mem
    omega
  have hd0 : start.toNat - ((iterate_logical_bits mem).map some).length = 0 :=
    Nat.sub_eq_zero_of_le hdle
  rw [List.drop_append_eq_append_drop, hd0, List.drop_zero]
  have htle : stop.toNat - start.toNat ≤
      (((iterate_logical_bits mem).map some).drop start.toNat).length := by
    have hlen : (((iterate_logical_bits mem).map some).drop start.toNat).length =
        op_bit_length mem - start.toNat := by
      simp only [List.length_drop, List.length_map]
      rfl
    rw [hlen]
    omega
  rw [List.take_append_of_le_length htle]
  rw [← List.map_drop, ← List.map_take, filterMap_id_map_some]

/-- C5 counterexample: on the valid full-byte region "10000000"
(byte_length 1), the out-of-range byte index 1 does not raise: `op_get_byte`
returns the empty region. -/
theorem op_get_byte_overread_no_raise :
    validate_memory ex_mem8 = true ∧
    op_byte_length ex_mem8 = 1 ∧
    ¬(0 ≤ (1 : Int) ∧ (1 : Int) < (op_byte_length ex_mem8 : Int)) ∧
    op_get_byte ex_mem8 1 = .ok null_region := by
  decide

/-- C5 (amended): for every valid region, `op_get_byte mem i` raises exactly
when i is outside [0, bit_length) or i·8 exceeds bit_length — for valid
regions this coincides with "i outside [0, byte_length)" except that when
bit_length is a multiple of 8 the index i = byte_length returns the empty
region instead of raising — and for every i inside [0, byte_length) it
returns the bits [i·8, min((i+1)·8, bit_length)). -/
theorem op_get_byte_error_iff_and_slice (mem : MemRgn) (i : Int)
    (hv : validate_memory mem = true) :
    ((op_get_byte mem i).isOk = true ↔
      (0 ≤ i ∧ i < (op_bit_length mem : Int) ∧ i * 8 ≤ (op_bit_length mem : Int))) ∧
    (0 ≤ i → i < (op_byte_length mem : Int) →
      iterate_logical_bits (ok_region (op_get_byte mem i)) =
        ((iterate_logical_bits mem).drop (i.toNat * 8)).take 8) := by
  constructor
  · simp only [op_get_byte]
    by_cases hc1 : 0 ≤ i ∧ i < (op_bit_length mem : Int)
    · rw [if_pos hc1, op_get_bits, isOk_ite_ok_error]
      constructor
      · intro hc2
        exact ⟨hc1.1, hc1.2, by omega⟩
      · intro hr
        omega
    · rw [if_neg hc1]
      constructor
      · intro hfalse
        simp [Except.isOk, Except.toBool] at hfalse
      · intro hr
        exact absurd ⟨hr.1, hr.2.1⟩ hc1
  · intro hi0 hibl
    have hbl1 : 1 ≤ op_bit_length mem := validate_bit_length_pos mem hv
    have hbyl : op_byte_length mem = (op_bit_length mem + 7) / 8 :=
      validate_byte_length mem hv
    have hi8 : i * 8 < (op_bit_length mem : Int) := by omega
    have hc1 : 0 ≤ i ∧ i < (op_bit_length mem : Int) := ⟨hi0, by omega⟩
    have hc2 : 0 ≤ i * 8 ∧
        i * 8 ≤ min (i * 8 + 8) (op_bit_length mem : Int) ∧
        min (i * 8 + 8) (op_bit_length mem : Int) ≤ (op_bit_length mem : Int) :=
      ⟨by omega, le_min (by omega) (by omega), min_le_right _ _⟩
    simp only [op_get_byte]
    rw [if_pos hc1, op_get_bits, if_pos hc2]
    show iterate_logical_bits ⟨pad_last_group
      (get_bits_groups (i * 8) (min (i * 8 + 8) (op_bit_length mem : Int)) 0 mem.bytes)⟩ = _
    rw [iterate_logical_bits]
    show (pad_last_group _).flatten.filterMap id = _
    rw [get_bits_body_slice mem hv (i * 8) (min (i * 8 + 8) (op_bit_length mem : Int))
      (by omega) (le_min (by omega) (by omega)) (min_le_right _ _)]
    have hd : (i * 8).toNat = i.toNat * 8 := by omega
    rw [hd]
    have hlenIter : (iterate_logical_bits mem).length = op_bit_length mem := rfl
    by_cases hcase : i * 8 + 8 ≤ (op_bit_length mem : Int)
    · rw [min_eq_left hcase]
      have ht8 : (i * 8 + 8).toNat - i.toNat * 8 = 8 := by omega
      rw [ht8]
    · rw [min_eq_right (by omega)]
      apply List.take_eq_take.mpr
      have hcast : ((op_bit_length mem : Int)).toNat = op_bit_length mem := by omega
      rw [hcast]
      simp only [List.length_drop, hlenIter]
      have hmin1 : min (op_bit_length mem - i.toNat * 8) (op_bit_length mem - i.toNat * 8) =
          op_bit_length mem - i.toNat * 8 := min_self _
      rw [hmin1]
      have hle8 : op_bit_length mem - i.toNat * 8 ≤ 8 := by omega
      rw [min_eq_right hle8]

/-- Witness for C5 at the valid 16-bit region "10000000 00000000" with byte
index 1. -/
theorem op_get_byte_error_iff_and_slice_witness :
    validate_memory ex_mem16 = true ∧
    (((op_get_byte ex_mem16 1).isOk = true ↔
        (0 ≤ (1 : Int) ∧ (1 : Int) < (op_bit_length ex_mem16 : Int) ∧
          (1 : Int) * 8 ≤ (op_bit_length ex_mem16 : Int))) ∧
      (0 ≤ (1 : Int) → (1 : Int) < (op_byte_length ex_mem16 : Int) →
        iterate_logical_bits (ok_region (op_get_byte ex_mem16 1)) =
          ((iterate_logical_bits ex_mem16).drop ((1 : Int).toNat * 8)).take 8)) :=
  ⟨by decide, op_get_byte_error_iff_and_slice ex_mem16 1 (by decide)⟩

end Tidbytes
